import Mathlib

/-!
Verification of the RLM processing pipeline of src/rlm-skill/scripts/rlm_processor.py.

Conventions of the embedding:
  - Python strings are modelled as lists of characters (abbreviation Str below);
    Python slicing is drop/take, and the negative-index normalisation of Python
    slices is modelled explicitly (pySliceIndex).
  - The two while loops of the source (chunk_by_chars and the recursion of
    aggregate_results) are modelled with an explicit fuel parameter, since they
    do not terminate on all inputs; a result of none means the fuel ran out,
    i.e. the loop needs more iterations.  Termination of the source loop is the
    proposition that some amount of fuel yields a result.
  - The external LLM (functions llm_query and llm_query_fast) is an abstract
    oracle parameter of type Bool -> Nat -> Str -> Except Str Str taking the
    model-speed hint, the max_tokens argument and the prompt; an error value
    models a raised exception carrying its message.
  - The two regular expressions used by the structural analyzer and the one
    literal-alternation keyword pattern of the relevance filter are modelled by
    direct character-level scanners; each scanner documents the exact pattern
    of the source it implements.
  - The float comparison len(relevant) < len(chunks) * 0.1 of the source is
    modelled by the exact comparison 10 * relevant.length < chunks.length;
    for chunk counts below 2 to the 50th the double product n * 0.1 rounds to a
    value in the half-open unit interval starting at n / 10, so the two
    predicates agree on integers.
-/

/-- Python strings are modelled as lists of characters. -/
abbrev Str : Type := List Char

/-- The characters Python str.strip removes: space, tab, newline, carriage
return, vertical tab, form feed.  This is also the character class of the
regex class backslash-s used by the analyzer patterns. -/
def isPySpace (c : Char) : Bool :=
  c == ' ' || c == '\t' || c == '\n' || c == '\r' || c == '\x0b' || c == '\x0c'

/-- Python str.strip applied to a character list. -/
def pyStrip (s : Str) : Str :=
  ((s.dropWhile isPySpace).reverse.dropWhile isPySpace).reverse

/-- Python sep.join applied to a list of strings. -/
def joinSep (sep : Str) : List Str → Str
  | [] => []
  | [x] => x
  | x :: y :: t => x ++ sep ++ joinSep sep (y :: t)

/-- Python content.split(sep) for a single-character separator: always returns
at least one (possibly empty) part, one more part per separator occurrence. -/
def splitOnChar (sep : Char) : Str → List Str
  | [] => [[]]
  | c :: rest =>
    match splitOnChar sep rest with
    | [] => [[]]
    | h :: t => if c = sep then [] :: h :: t else (c :: h) :: t

/-- Decides whether pat occurs at the very beginning of s. -/
def leadMatch : Str → Str → Bool
  | [], _ => true
  | _ :: _, [] => false
  | p :: ps, c :: cs => p == c && leadMatch ps cs

/-- Decides whether pat occurs anywhere in s (Python "pat in s", also
re.search for a literal pattern). -/
def containsSeq (pat : Str) : Str → Bool
  | [] => leadMatch pat []
  | c :: rest => leadMatch pat (c :: rest) || containsSeq pat rest

/-- Splits s at the first occurrence of sep, returning the part before the
occurrence and the remainder after it, or none when sep does not occur. -/
def findSplit (sep : Str) : Str → Option (Str × Str)
  | [] => none
  | c :: rest =>
    if leadMatch sep (c :: rest) then some ([], (c :: rest).drop sep.length)
    else
      match findSplit sep rest with
      | none => none
      | some (pre, post) => some (c :: pre, post)

/-- Fueled worker for Python content.split(sep) with a multi-character
separator; every step consumes at least one character of s for a nonempty
sep, so fuel s.length + 1 is always sufficient (Python rejects an empty
separator, which is never passed by this program). -/
def splitSeqGo (sep : Str) : Nat → Str → List Str
  | 0, s => [s]
  | fuel + 1, s =>
    match findSplit sep s with
    | none => [s]
    | some (pre, post) => pre :: splitSeqGo sep fuel post

/-- Python content.split(sep) for a multi-character separator. -/
def splitOnSeq (sep : Str) (s : Str) : List Str :=
  splitSeqGo sep (s.length + 1) s

/-- Prepends a character to the first part of a part list (helper for the
character-level scanners below). -/
def consHead (c : Char) : List Str → List Str
  | [] => [[c]]
  | h :: t => (c :: h) :: t

/-- Python-slice index normalisation: a negative index counts from the end
and both directions are clamped to the interval from 0 to len. -/
def pySliceIndex (len : Nat) (i : Int) : Nat :=
  if i < 0 then ((len : Int) + i).toNat else min i.toNat len

/-- Python s[a:b] for integer bounds a and b. -/
def pySlice (s : Str) (a b : Int) : Str :=
  let a2 := pySliceIndex s.length a
  let b2 := pySliceIndex s.length b
  (s.drop a2).take (b2 - a2)

/-- The while loop of chunk_by_chars (rlm_processor.py lines 148 to 156),
state variable start, one fuel unit per iteration:
while start < len(content): end = min(start + chunk_size, len(content));
chunks.append(content[start:end]);
start = end - overlap if overlap and end < len(content) else end.
The loop variable start is an int and can become negative when
overlap > chunk_size, hence the Int state. -/
def chunkCharsGo (content : Str) (chunk_size overlap : Nat) : Nat → Int → Option (List Str)
  | 0, _ => none
  | fuel + 1, start =>
    if start < (content.length : Int) then
      let e : Int := min (start + (chunk_size : Int)) (content.length : Int)
      let next : Int := if overlap ≠ 0 ∧ e < (content.length : Int) then e - (overlap : Int) else e
      (chunkCharsGo content chunk_size overlap fuel next).map
        (fun rest => pySlice content start e :: rest)
    else some []

/-- The loop of chunk_by_chars terminates when some fuel suffices. -/
def ChunkCharsTerminates (content : Str) (chunk_size overlap : Nat) : Prop :=
  ∃ fuel r, chunkCharsGo content chunk_size overlap fuel 0 = some r

/-- chunk_by_chars (rlm_processor.py lines 148 to 156).  Fuel
content.length + 1 is proved sufficient below whenever the source loop
terminates (overlap < chunk_size, or all of the content fits in one chunk);
the source defaults are chunk_size 40000 and overlap 500. -/
def chunk_by_chars (content : Str) (chunk_size overlap : Nat) : List Str :=
  (chunkCharsGo content chunk_size overlap (content.length + 1) 0).getD []

/-- Nat-state variant of chunkCharsGo, provably equal to it while the start
index stays nonnegative (the case overlap < chunk_size); the proofs below
work with this form. -/
def chunkCharsGoN (content : Str) (chunk_size overlap : Nat) : Nat → Nat → Option (List Str)
  | 0, _ => none
  | fuel + 1, start =>
    if start < content.length then
      let e := min (start + chunk_size) content.length
      let next := if overlap ≠ 0 ∧ e < content.length then e - overlap else e
      (chunkCharsGoN content chunk_size overlap fuel next).map
        (fun rest => (content.drop start).take (e - start) :: rest)
    else some []

/-- Groups a list into consecutive groups of n elements (the loop
for i in range(0, len(lines), n): lines[i:i+n]).  Python raises on step
n = 0; that case, never exercised by the program, returns no groups here. -/
def groupsOf (n : Nat) (l : List Str) : List (List Str) :=
  if l.isEmpty || n == 0 then [] else l.take n :: groupsOf n (l.drop n)
termination_by l.length
decreasing_by
  rename_i h
  simp only [Bool.or_eq_true, List.isEmpty_iff, beq_iff_eq] at h
  push_neg at h
  have h1 : l ≠ [] := h.1
  have h2 : n ≠ 0 := h.2
  have : 0 < l.length := List.length_pos.mpr h1
  simp only [List.length_drop]
  omega

/-- chunk_by_lines (rlm_processor.py lines 159 to 165): split on newline,
group lines_per_chunk lines, rejoin each group with newline.  The source
default for lines_per_chunk is 500. -/
def chunk_by_lines (content : Str) (lines_per_chunk : Nat) : List Str :=
  (groupsOf lines_per_chunk (splitOnChar '\n' content)).map (joinSep ['\n'])

/-- chunk_by_separator (rlm_processor.py lines 168 to 171): split on the
literal separator, strip each part, drop parts that are empty after
stripping.  The source default separator is newline dashes newline. -/
def chunk_by_separator (content : Str) (separator : Str) : List Str :=
  (splitOnSeq separator content).filterMap
    (fun c => let s := pyStrip c; if s.isEmpty then none else some s)

/-- Lookahead test of the one regex pattern chunk_by_regex is called with,
backslash-n followed by lookahead of one or two hash signs then whitespace:
true when s begins with one or two hash characters followed by a whitespace
character. -/
def mdSplitHere : Str → Bool
  | '#' :: '#' :: c :: _ => isPySpace c
  | '#' :: c :: _ => isPySpace c
  | _ => false

/-- re.split of that pattern: the content is cut at every newline whose
suffix satisfies mdSplitHere; the newline itself is the consumed match and
the looked-ahead header text stays with the following part. -/
def mdParts : Str → List Str
  | [] => [[]]
  | c :: rest =>
    if c = '\n' ∧ mdSplitHere rest then [] :: mdParts rest
    else consHead c (mdParts rest)

/-- chunk_by_regex (rlm_processor.py lines 174 to 177) at the single pattern
the program uses (auto_chunk line 201): split before level-1 or level-2
markdown headers, strip each part, drop empty parts. -/
def chunk_by_md_pattern (content : Str) : List Str :=
  (mdParts content).filterMap
    (fun p => let s := pyStrip p; if s.isEmpty then none else some s)

/-- After a newline, tries to match the remainder of the separator regex
alternative, a run of at least three dashes or at least three equal signs
followed by a newline (the pattern writes two literal characters then a
plus); returns the text after the consumed final newline. -/
def trySepTail (s : Str) : Option Str :=
  let d := s.takeWhile (fun c => c == '-')
  let r := s.dropWhile (fun c => c == '-')
  if 3 ≤ d.length then
    match r with
    | '\n' :: r2 => some r2
    | _ => none
  else
    let d2 := s.takeWhile (fun c => c == '=')
    let r2 := s.dropWhile (fun c => c == '=')
    if 3 ≤ d2.length then
      match r2 with
      | '\n' :: r3 => some r3
      | _ => none
    else none

/-- Fueled scanner counting the non-overlapping matches of the analyzer
separator pattern (newline, run of dashes or equal signs of length at least
three, newline); found matches are consumed whole, exactly as re.findall
resumes after each match.  Every step consumes at least one character, so
fuel s.length is sufficient. -/
def countDocSepsGo : Nat → Str → Nat
  | 0, _ => 0
  | _ + 1, [] => 0
  | fuel + 1, c :: rest =>
    if c = '\n' then
      match trySepTail rest with
      | some rest2 => 1 + countDocSepsGo fuel rest2
      | none => countDocSepsGo fuel rest
    else countDocSepsGo fuel rest

/-- doc_seps of auto_chunk: number of matches of the separator pattern. -/
def countDocSeps (s : Str) : Nat := countDocSepsGo s.length s

/-- At a line start, tries to match the markdown header pattern, a run of at
least one hash sign followed by a run of at least one whitespace character
(both maximal, as the greedy regex takes them); returns the remainder after
the match together with the flag telling whether the last consumed
whitespace character was a newline (then the remainder is again at a line
start). -/
def mdHeaderAt (s : Str) : Option (Str × Bool) :=
  let hs := s.takeWhile (fun c => c == '#')
  let r1 := s.dropWhile (fun c => c == '#')
  if 1 ≤ hs.length then
    let sp := r1.takeWhile isPySpace
    let r2 := r1.dropWhile isPySpace
    if 1 ≤ sp.length then some (r2, sp.getLastD ' ' == '\n') else none
  else none

/-- Fueled scanner counting the matches of the multiline pattern hash run
then whitespace run anchored at line starts, resuming after each consumed
match as re.findall does.  Every step consumes at least one character, so
fuel s.length is sufficient. -/
def countMdGo : Nat → Bool → Str → Nat
  | 0, _, _ => 0
  | _ + 1, _, [] => 0
  | fuel + 1, atStart, c :: rest =>
    if atStart then
      match mdHeaderAt (c :: rest) with
      | some (r2, nl) => 1 + countMdGo fuel nl r2
      | none => countMdGo fuel (c = '\n') rest
    else countMdGo fuel (c = '\n') rest

/-- md_headers of auto_chunk: number of matches of the header pattern; the
multiline anchor also matches at the start of the whole string. -/
def countMdHeaders (s : Str) : Nat := countMdGo s.length true s

/-- The strategy tag auto_chunk returns (a Python string in the source). -/
inductive Strategy : Type where
  | document_separator : Strategy
  | markdown_headers : Strategy
  | line_count : Strategy
  | character_count : Strategy
deriving DecidableEq, Repr

/-- auto_chunk (rlm_processor.py lines 180 to 211).  The source also counts
json object openers into json_objs, a value it never reads; that count is
omitted.  The two float average comparisons chars / seps < 2 * target and
chars / lines < 200 are modelled by exact cross-multiplied comparisons (the
divisors are positive whenever the comparisons are reached).  The markdown
branch returns only when every header chunk is shorter than twice the
target, otherwise it falls through; the character branch calls
chunk_by_chars with the source default overlap 500. -/
def auto_chunk (content : Str) (target_chunk_size : Nat) : List Str × Strategy :=
  let doc_seps := countDocSeps content
  let md_headers := countMdHeaders content
  let total_chars := content.length
  let total_lines := content.count '\n'
  if 5 < doc_seps ∧ total_chars < target_chunk_size * 2 * doc_seps then
    (chunk_by_separator content ("\n---".toList), Strategy.document_separator)
  else if 10 < md_headers ∧
      (chunk_by_md_pattern content).all (fun c => c.length < target_chunk_size * 2) then
    (chunk_by_md_pattern content, Strategy.markdown_headers)
  else if 100 < total_lines ∧ total_chars < 200 * total_lines then
    (chunk_by_lines content (max 100 (target_chunk_size / 100)), Strategy.line_count)
  else
    (chunk_by_chars content target_chunk_size 500, Strategy.character_count)

/-- Word characters of the regex class backslash-w (ASCII part). -/
def isWordChar (c : Char) : Bool := c.isAlphanum || c == '_'

/-- Maximal runs of word characters of s (the matches of the pattern word
boundary, four or more word characters, word boundary are exactly the
maximal runs of length at least four; the length filter is applied by the
caller). -/
def wordRuns : Str → List Str
  | [] => []
  | c :: rest =>
    if isWordChar c then
      match rest with
      | [] => [[c]]
      | d :: _ => if isWordChar d then consHead c (wordRuns rest) else [c] :: wordRuns rest
    else wordRuns rest

/-- Lowercasing a Python string (str.lower, simple character mapping). -/
def toLowerStr (s : Str) : Str := s.map Char.toLower

/-- The stop-word set of filter_relevant_chunks. -/
def stopwords : List Str :=
  ["what", "when", "where", "which", "about", "this", "that",
   "with", "from", "have", "does", "find", "list", "show"].map String.toList

/-- Keyword derivation of filter_relevant_chunks: word runs of length at
least four of the lowercased query, stop words removed. -/
def deriveKeywords (query : Str) : List Str :=
  ((wordRuns (toLowerStr query)).filter (fun w => 4 ≤ w.length)).filter
    (fun w => !(stopwords.contains w))

/-- re.search of the alternation of the escaped keywords with IGNORECASE:
some keyword occurs in the chunk up to case. -/
def matchesAnyKeyword (keywords : List Str) (chunk : Str) : Bool :=
  keywords.any (fun kw => containsSeq (toLowerStr kw) (toLowerStr chunk))

/-- The keyword list filter_relevant_chunks actually uses: a None or empty
explicit keyword list (both falsy in Python) triggers derivation from the
query. -/
def effectiveKeywords (query : Str) (keywords : Option (List Str)) : List Str :=
  if (keywords.getD []).isEmpty then deriveKeywords query else keywords.getD []

/-- filter_relevant_chunks (rlm_processor.py lines 218 to 252).  With no
usable keywords every chunk is returned with its index; otherwise matching
chunks are kept unless fewer than ten percent of all chunks match, in which
case every chunk is returned. -/
def filter_relevant_chunks (chunks : List Str) (query : Str)
    (keywords : Option (List Str)) : List (Nat × Str) :=
  if (effectiveKeywords query keywords).isEmpty then chunks.enum
  else if (chunks.enum.filter
      (fun p => matchesAnyKeyword (effectiveKeywords query keywords) p.2)).length * 10 <
      chunks.length then
    chunks.enum
  else chunks.enum.filter (fun p => matchesAnyKeyword (effectiveKeywords query keywords) p.2)

/-- The external LLM call: model-speed hint (llm_query_fast versus
llm_query), max_tokens, prompt; an error value is a raised exception with
its message. -/
abbrev Oracle : Type := Bool → Nat → Str → Except Str Str

/-- Decimal rendering of a number interpolated into a prompt. -/
def natStr (n : Nat) : Str := (Nat.repr n).toList

/-- The per-chunk prompt of process_chunk (rlm_processor.py lines 267 to
282), with the four interpolations of the source f-string. -/
def chunkPrompt (chunk : Str) (chunk_index total_chunks : Nat) (query : Str) : Str :=
  "You are analyzing section ".toList ++ natStr (chunk_index + 1) ++
  " of ".toList ++ natStr total_chunks ++
  " of a large document.\n\nORIGINAL QUERY: ".toList ++ query ++
  "\n\nDOCUMENT SECTION:\n---\n".toList ++ chunk ++
  ("\n---\n\nINSTRUCTIONS:\n" ++
   "1. Extract any information from this section relevant to answering the query\n" ++
   "2. If nothing relevant is found, respond with exactly: NO_RELEVANT_INFO\n" ++
   "3. Be concise but preserve important details\n" ++
   "4. Note any partial information that might be useful combined with other sections\n\n" ++
   "YOUR ANALYSIS:").toList

/-- The sentinel token the oracle is instructed to reply with. -/
def sentinelToken : Str := "NO_RELEVANT_INFO".toList

/-- process_chunk (rlm_processor.py lines 255 to 296): one oracle call with
max_tokens 2048; any raised error is swallowed into none (the source also
logs it); a reply containing the sentinel token yields none; otherwise the
stripped reply is the extraction. -/
def process_chunk (oracle : Oracle) (chunk : Str) (chunk_index total_chunks : Nat)
    (query : Str) (fast_model : Bool) : Option Str :=
  match oracle fast_model 2048 (chunkPrompt chunk chunk_index total_chunks query) with
  | Except.error _ => none
  | Except.ok result =>
    if containsSeq sentinelToken result then none else some (pyStrip result)

/-- The fixed answer aggregate_results returns for an empty result list. -/
def noRelevantInfoAnswer : Str :=
  "No relevant information found in the provided context for this query.".toList

/-- The generic sub-query of the hierarchical aggregation recursion. -/
def summarizeQuery : Str := "Summarize these findings".toList

/-- One formatted block of aggregate_results, Section index plus one,
newline, extraction. -/
def labeledBlock (p : Nat × Str) : Str :=
  "[Section ".toList ++ natStr (p.1 + 1) ++ "]\n".toList ++ p.2

/-- The combined text of aggregate_results: blocks joined by blank lines. -/
def combineResults (results : List (Nat × Str)) : Str :=
  joinSep ("\n\n".toList) (results.map labeledBlock)

/-- The synthesis prompt of aggregate_results (rlm_processor.py lines 331 to
345), with its two interpolations. -/
def aggregationPrompt (combined query : Str) : Str :=
  "You analyzed a large document in sections. Here are the relevant findings:\n\n".toList ++
  combined ++
  "\n\n---\n\nORIGINAL QUERY: ".toList ++ query ++
  ("\n\nINSTRUCTIONS:\n" ++
   "1. Synthesize all findings into a comprehensive answer\n" ++
   "2. Resolve any contradictions between sections\n" ++
   "3. Cite specific sections when relevant (e.g., \"According to Section 3...\")\n" ++
   "4. If the query cannot be fully answered, explain what\x27s missing\n\n" ++
   "YOUR FINAL ANSWER:").toList

/-- The final synthesis call of aggregate_results with max_tokens 4096: on
success the reply, on a raised error the degraded answer embedding the
error message and the first 5000 characters of the combined findings. -/
def synthesize (oracle : Oracle) (fast_model : Bool) (combined query : Str) : Str :=
  match oracle fast_model 4096 (aggregationPrompt combined query) with
  | Except.ok r => r
  | Except.error e =>
    "Error during aggregation: ".toList ++ e ++
    "\n\nRaw findings:\n".toList ++ combined.take 5000

/-- aggregate_results (rlm_processor.py lines 299 to 352), one fuel unit per
recursion level: empty input yields the fixed sentinel answer with no oracle
call; when the combined labeled text exceeds 50000 characters the pair list
is split at half its length and both halves are aggregated recursively under
the generic summary query, and the two summaries replace the combined text;
finally one synthesis call produces the answer. -/
def aggFuel (oracle : Oracle) : Nat → List (Nat × Str) → Str → Bool → Option Str
  | 0, _, _, _ => none
  | fuel + 1, results, query, fast_model =>
    if results.isEmpty then some noRelevantInfoAnswer
    else
      let combined := combineResults results
      if 50000 < combined.length then
        let mid := results.length / 2
        match aggFuel oracle fuel (results.take mid) summarizeQuery fast_model,
              aggFuel oracle fuel (results.drop mid) summarizeQuery fast_model with
        | some left_agg, some right_agg =>
          some (synthesize oracle fast_model
            ("Summary Part 1:\n".toList ++ left_agg ++
             "\n\nSummary Part 2:\n".toList ++ right_agg) query)
        | _, _ => none
      else some (synthesize oracle fast_model combined query)

/-- The recursion of aggregate_results terminates when some fuel suffices. -/
def AggTerminates (oracle : Oracle) (results : List (Nat × Str)) (query : Str)
    (fast_model : Bool) : Prop :=
  ∃ fuel answer, aggFuel oracle fuel results query fast_model = some answer

/-- aggregate_results with the canonical fuel results.length + 1, proved
sufficient below whenever every labeled block fits under the threshold. -/
def aggregate_results (oracle : Oracle) (results : List (Nat × Str)) (query : Str)
    (fast_model : Bool) : Option Str :=
  aggFuel oracle (results.length + 1) results query fast_model

/-- Step 3 of rlm_process (rlm_processor.py lines 431 to 437): the relevance
filter runs only when filtering is enabled and more than three chunks exist;
otherwise every chunk is paired with its index. -/
def rlm_select_chunks (filter_chunks : Bool) (chunks : List Str) (query : Str) :
    List (Nat × Str) :=
  if filter_chunks ∧ 3 < chunks.length then filter_relevant_chunks chunks query none
  else chunks.enum

/-- Step 4 of rlm_process (lines 442 to 454): each selected chunk is
processed with its original index and the total chunk count; a falsy result
(absent, or empty after stripping) is dropped, the rest keep their original
index. -/
def rlm_chunk_results (oracle : Oracle) (indexed : List (Nat × Str)) (total_chunks : Nat)
    (query : Str) (fast_model : Bool) : List (Nat × Str) :=
  indexed.filterMap (fun p =>
    match process_chunk oracle p.2 p.1 total_chunks query fast_model with
    | none => none
    | some r => if r.isEmpty then none else some (p.1, r))

/-- rlm_process (rlm_processor.py lines 355 to 464) from the point where the
content string is loaded (file loading and logging are out of scope):
auto-chunk, select, process each selected chunk, aggregate. -/
def rlm_process (oracle : Oracle) (content query : Str) (chunk_size : Nat)
    (fast_model filter_chunks : Bool) : Option Str :=
  let chunked := auto_chunk content chunk_size
  let indexed := rlm_select_chunks filter_chunks chunked.1 query
  let results := rlm_chunk_results oracle indexed chunked.1.length query fast_model
  aggregate_results oracle results query fast_model

/-- Overlap-aware concatenation (spec wording: the chunks concatenated
ignoring the overlap region): each chunk after the first contributes only
the text after its first overlap characters. -/
def reassembleOverlap (overlap : Nat) : List Str → Str
  | [] => []
  | [c] => c
  | c :: c2 :: t => c ++ (reassembleOverlap overlap (c2 :: t)).drop overlap

/-! ## Unfolding equations for the fueled loops -/

/-- One-step unfolding of the chunk_by_chars loop (Int state). -/
theorem chunkCharsGo_succ (content : Str) (chunk_size overlap : Nat) (fuel : Nat) (start : Int) :
    chunkCharsGo content chunk_size overlap (fuel + 1) start =
      if start < (content.length : Int) then
        (chunkCharsGo content chunk_size overlap fuel
          (if overlap ≠ 0 ∧ min (start + (chunk_size : Int)) (content.length : Int) < (content.length : Int)
           then min (start + (chunk_size : Int)) (content.length : Int) - (overlap : Int)
           else min (start + (chunk_size : Int)) (content.length : Int))).map
          (fun rest =>
            pySlice content start (min (start + (chunk_size : Int)) (content.length : Int)) :: rest)
      else some [] := rfl

/-- One-step unfolding of the chunk_by_chars loop (Nat state). -/
theorem chunkCharsGoN_succ (content : Str) (chunk_size overlap : Nat) (fuel start : Nat) :
    chunkCharsGoN content chunk_size overlap (fuel + 1) start =
      if start < content.length then
        (chunkCharsGoN content chunk_size overlap fuel
          (if overlap ≠ 0 ∧ min (start + chunk_size) content.length < content.length
           then min (start + chunk_size) content.length - overlap
           else min (start + chunk_size) content.length)).map
          (fun rest =>
            (content.drop start).take (min (start + chunk_size) content.length - start) :: rest)
      else some [] := rfl

/-- One-step unfolding of the aggregate_results recursion. -/
theorem aggFuel_succ (oracle : Oracle) (fuel : Nat) (results : List (Nat × Str))
    (query : Str) (fast_model : Bool) :
    aggFuel oracle (fuel + 1) results query fast_model =
      if results.isEmpty then some noRelevantInfoAnswer
      else if 50000 < (combineResults results).length then
        match aggFuel oracle fuel (results.take (results.length / 2)) summarizeQuery fast_model,
              aggFuel oracle fuel (results.drop (results.length / 2)) summarizeQuery fast_model with
        | some left_agg, some right_agg =>
          some (synthesize oracle fast_model
            ("Summary Part 1:\n".toList ++ left_agg ++
             "\n\nSummary Part 2:\n".toList ++ right_agg) query)
        | _, _ => none
      else some (synthesize oracle fast_model (combineResults results) query) := rfl

/-! ## Enumeration facts used by the filter claims -/

/-- Every pair of enumFrom carries an index at least the offset and the
element found at the corresponding position of the list. -/
theorem mem_enumFrom_spec {α : Type} (l : List α) :
    ∀ (n : Nat) (p : Nat × α), p ∈ List.enumFrom n l →
      n ≤ p.1 ∧ l.get? (p.1 - n) = some p.2 := by
  induction l with
  | nil => intro n p h; simp [List.enumFrom] at h
  | cons a t ih =>
    intro n p h
    simp only [List.enumFrom, List.mem_cons] at h
    rcases h with rfl | h
    · simp
    · obtain ⟨h1, h2⟩ := ih (n + 1) p h
      refine ⟨by omega, ?_⟩
      have hrw : p.1 - n = (p.1 - (n + 1)) + 1 := by omega
      rw [hrw]
      simpa using h2

/-- The indices of enumFrom are strictly increasing. -/
theorem enumFrom_pairwise {α : Type} (l : List α) :
    ∀ n : Nat, (List.enumFrom n l).Pairwise (fun p q => p.1 < q.1) := by
  induction l with
  | nil => intro n; simp [List.enumFrom]
  | cons a t ih =>
    intro n
    simp only [List.enumFrom]
    refine List.Pairwise.cons ?_ (ih (n + 1))
    intro q hq
    have := (mem_enumFrom_spec t (n + 1) q hq).1
    simp only []
    omega

/-! ## C5: the relevance filter returns everything or at least ten percent -/

/-- C5: filter_relevant_chunks either returns all chunks paired with their
indices, or a retained set of size at least ten percent of the chunk count;
it never returns a nonempty proper subset below ten percent. -/
theorem claims_C5 (chunks : List Str) (query : Str) (keywords : Option (List Str)) :
    filter_relevant_chunks chunks query keywords = chunks.enum ∨
      chunks.length ≤ 10 * (filter_relevant_chunks chunks query keywords).length := by
  unfold filter_relevant_chunks
  split
  · exact Or.inl rfl
  · split
    · exact Or.inl rfl
    · rename_i hkeep
      right
      omega

/-! ## C6: the filter preserves original indices and their order -/

/-- C6: every pair the filter returns holds the chunk found at its original
zero-based position of the input list, and the returned indices are
strictly increasing, so the original relative order is preserved. -/
theorem claims_C6 (chunks : List Str) (query : Str) (keywords : Option (List Str)) :
    (∀ p ∈ filter_relevant_chunks chunks query keywords, chunks.get? p.1 = some p.2) ∧
      (filter_relevant_chunks chunks query keywords).Pairwise (fun p q => p.1 < q.1) := by
  have hmem : ∀ p ∈ chunks.enum, chunks.get? p.1 = some p.2 := by
    intro p hp
    have h := (mem_enumFrom_spec chunks 0 p hp).2
    simpa using h
  have hpw : (chunks.enum).Pairwise (fun p q => p.1 < q.1) := enumFrom_pairwise chunks 0
  unfold filter_relevant_chunks
  split
  · exact ⟨hmem, hpw⟩
  · split
    · exact ⟨hmem, hpw⟩
    · refine ⟨?_, hpw.filter _⟩
      intro p hp
      exact hmem p (List.mem_of_mem_filter hp)

/-- Witness for C6 at a concrete input. -/
theorem claims_C6_witness :
    (∀ p ∈ filter_relevant_chunks ["aa".toList] ("q".toList) none,
        ["aa".toList].get? p.1 = some p.2) ∧
      (filter_relevant_chunks ["aa".toList] ("q".toList) none).Pairwise
        (fun p q => p.1 < q.1) :=
  claims_C6 ["aa".toList] ("q".toList) none

/-! ## C7: per-chunk oracle failure and sentinel handling -/

/-- C7: if the oracle call errors, process_chunk returns the absent result
(no exception escapes); if the reply contains the sentinel token the result
is absent; otherwise the result is the trimmed full reply. -/
theorem claims_C7 (oracle : Oracle) (chunk : Str) (chunk_index total_chunks : Nat)
    (query : Str) (fast_model : Bool) :
    (∀ e, oracle fast_model 2048 (chunkPrompt chunk chunk_index total_chunks query) =
        Except.error e →
      process_chunk oracle chunk chunk_index total_chunks query fast_model = none) ∧
    (∀ r, oracle fast_model 2048 (chunkPrompt chunk chunk_index total_chunks query) =
        Except.ok r →
      (containsSeq sentinelToken r = true →
        process_chunk oracle chunk chunk_index total_chunks query fast_model = none) ∧
      (containsSeq sentinelToken r = false →
        process_chunk oracle chunk chunk_index total_chunks query fast_model =
          some (pyStrip r))) := by
  refine ⟨?_, ?_⟩
  · intro e he
    simp [process_chunk, he]
  · intro r hr
    refine ⟨?_, ?_⟩
    · intro hs
      simp [process_chunk, hr, hs]
    · intro hs
      simp [process_chunk, hr, hs]

/-- Witness for C7: a failing oracle, a sentinel reply and a normal reply,
each at a concrete input. -/
theorem claims_C7_witness :
    process_chunk (fun _ _ _ => Except.error ("boom".toList)) ("c".toList) 0 1 ("q".toList)
        false = none ∧
    process_chunk (fun _ _ _ => Except.ok ("NO_RELEVANT_INFO".toList)) ("c".toList) 0 1
        ("q".toList) false = none ∧
    process_chunk (fun _ _ _ => Except.ok (" info ".toList)) ("c".toList) 0 1 ("q".toList)
        false = some ("info".toList) := by
  refine ⟨?_, ?_, ?_⟩
  · exact (claims_C7 (fun _ _ _ => Except.error ("boom".toList)) ("c".toList) 0 1
      ("q".toList) false).1 ("boom".toList) rfl
  · exact ((claims_C7 (fun _ _ _ => Except.ok ("NO_RELEVANT_INFO".toList)) ("c".toList) 0 1
      ("q".toList) false).2 ("NO_RELEVANT_INFO".toList) rfl).1 (by decide)
  · have h := ((claims_C7 (fun _ _ _ => Except.ok (" info ".toList)) ("c".toList) 0 1
      ("q".toList) false).2 (" info ".toList) rfl).2 (by decide)
    rw [h]
    decide

/-! ## C8: aggregating an empty extraction list -/

/-- C8: aggregate_results on the empty extraction list returns the fixed
no-relevant-information sentinel answer, for every oracle whatsoever, so no
oracle call is consulted. -/
theorem claims_C8 (oracle : Oracle) (query : Str) (fast_model : Bool) :
    aggregate_results oracle [] query fast_model = some noRelevantInfoAnswer := rfl

/-! ## C1: termination behaviour of the aggregation recursion -/

/-- On a single pair whose labeled block exceeds the threshold, the
aggregation recursion never finishes: the halves are the empty list and the
very same singleton, so the pair count does not decrease. -/
theorem aggFuel_single_oversized (oracle : Oracle) (p : Nat × Str)
    (hp : 50000 < (labeledBlock p).length) :
    ∀ (fuel : Nat) (query : Str) (fast_model : Bool),
      aggFuel oracle fuel [p] query fast_model = none := by
  intro fuel
  induction fuel with
  | zero => intro q f; rfl
  | succ n ih =>
    intro q f
    rw [aggFuel_succ]
    have hc : combineResults [p] = labeledBlock p := by
      simp [combineResults, joinSep]
    rw [hc]
    simp only [List.isEmpty_cons, Bool.false_eq_true, if_false, if_pos hp]
    have hlen : ([p] : List (Nat × Str)).length / 2 = 0 := by simp
    rw [hlen]
    simp only [List.take_zero, List.drop_zero]
    rw [ih summarizeQuery f]
    rcases aggFuel oracle n [] summarizeQuery f with _ | a <;> rfl

/-- When every labeled block fits under the threshold, fuel exceeding the
pair count suffices for the aggregation recursion to produce an answer. -/
theorem aggFuel_some_of_blocks_small (oracle : Oracle) :
    ∀ (fuel : Nat) (results : List (Nat × Str)) (query : Str) (fast_model : Bool),
      results.length < fuel →
      (∀ p ∈ results, (labeledBlock p).length ≤ 50000) →
      ∃ a, aggFuel oracle fuel results query fast_model = some a := by
  intro fuel
  induction fuel with
  | zero => intro r q f h _; omega
  | succ n ih =>
    intro results q f hlen hblocks
    rw [aggFuel_succ]
    rcases results with _ | ⟨p, rest⟩
    · exact ⟨noRelevantInfoAnswer, rfl⟩
    · simp only [List.isEmpty_cons, Bool.false_eq_true, if_false]
      by_cases hbig : 50000 < (combineResults (p :: rest)).length
      · have h2 : 2 ≤ (p :: rest).length := by
          rcases rest with _ | ⟨p2, rest2⟩
          · exfalso
            have hc : combineResults [p] = labeledBlock p := by
              simp [combineResults, joinSep]
            rw [hc] at hbig
            have := hblocks p (List.mem_singleton_self p)
            omega
          · simp only [List.length_cons]
            omega
        have hm1 : 1 ≤ (p :: rest).length / 2 := by omega
        have hm2 : (p :: rest).length / 2 ≤ (p :: rest).length - 1 := by omega
        obtain ⟨la, hla⟩ := ih ((p :: rest).take ((p :: rest).length / 2)) summarizeQuery f
          (by simp only [List.length_take]; omega)
          (fun x hx => hblocks x (List.take_subset _ _ hx))
        obtain ⟨ra, hra⟩ := ih ((p :: rest).drop ((p :: rest).length / 2)) summarizeQuery f
          (by simp only [List.length_drop]; omega)
          (fun x hx => hblocks x (List.drop_subset _ _ hx))
        rw [if_pos hbig, hla, hra]
        exact ⟨_, rfl⟩
      · rw [if_neg hbig]
        exact ⟨_, rfl⟩

/-- C1 (amended): the aggregation recursion terminates, for every query and
model-speed hint, whenever every labeled section block of the extraction
list is at most the 50000-character threshold; with a single pair whose
labeled text exceeds the threshold it does not terminate (see the
counterexample). -/
theorem claims_C1_amended (oracle : Oracle) (results : List (Nat × Str)) (query : Str)
    (fast_model : Bool)
    (h : ∀ p ∈ results, (labeledBlock p).length ≤ 50000) :
    AggTerminates oracle results query fast_model := by
  obtain ⟨a, ha⟩ := aggFuel_some_of_blocks_small oracle (results.length + 1) results query
    fast_model (by omega) h
  exact ⟨results.length + 1, a, ha⟩

/-- Witness for C1 at a concrete input. -/
theorem claims_C1_witness :
    (∀ p ∈ ([(0, "hi".toList)] : List (Nat × Str)), (labeledBlock p).length ≤ 50000) ∧
      AggTerminates (fun _ _ _ => Except.ok []) [(0, "hi".toList)] [] false :=
  ⟨by decide, claims_C1_amended (fun _ _ _ => Except.ok []) [(0, "hi".toList)] [] false
    (by decide)⟩

/-- Counterexample to C1 as stated: on the singleton extraction list whose
labeled text alone exceeds the 50000-character threshold, aggregate_results
does not terminate for any amount of fuel. -/
theorem claims_C1_counterexample :
    ¬ AggTerminates (fun _ _ _ => Except.ok []) [(0, List.replicate 50001 'a')] [] false := by
  rintro ⟨fuel, a, ha⟩
  have hp : 50000 < (labeledBlock (0, List.replicate 50001 'a')).length := by
    have : (labeledBlock (0, List.replicate 50001 'a')).length = 50013 := by
      simp only [labeledBlock, natStr, List.length_append, List.length_replicate]
      decide
    omega
  rw [aggFuel_single_oversized (fun _ _ _ => Except.ok []) (0, List.replicate 50001 'a') hp
    fuel [] false] at ha
  exact Option.noConfusion ha

/-! ## The chunk_by_chars loop: bridge to Nat state and fuel sufficiency -/

/-- Python slicing at nonnegative in-range bounds is drop then take. -/
theorem pySlice_ofNat (content : Str) (a b : Nat) (ha : a ≤ content.length)
    (hb : b ≤ content.length) :
    pySlice content (a : Int) (b : Int) = (content.drop a).take (b - a) := by
  unfold pySlice pySliceIndex
  rw [if_neg (by omega), if_neg (by omega)]
  have h1 : (a : Int).toNat = a := Int.toNat_ofNat a
  have h2 : (b : Int).toNat = b := Int.toNat_ofNat b
  rw [h1, h2, min_eq_left ha, min_eq_left hb]

/-- While the start index is a natural number and overlap < chunk_size, the
Int-state loop agrees with the Nat-state variant. -/
theorem chunkCharsGo_eq_goN (content : Str) (chunk_size overlap : Nat)
    (ho : overlap < chunk_size) :
    ∀ (fuel start : Nat),
      chunkCharsGo content chunk_size overlap fuel (start : Int) =
        chunkCharsGoN content chunk_size overlap fuel start := by
  intro fuel
  induction fuel with
  | zero => intro s; rfl
  | succ n ih =>
    intro start
    rw [chunkCharsGo_succ, chunkCharsGoN_succ]
    by_cases hs : start < content.length
    · have hsI : (start : Int) < (content.length : Int) := by exact_mod_cast hs
      rw [if_pos hsI, if_pos hs]
      have hcast : min ((start : Int) + (chunk_size : Int)) (content.length : Int) =
          ((min (start + chunk_size) content.length : Nat) : Int) := by
        push_cast
        rfl
      rw [hcast]
      have heNle : min (start + chunk_size) content.length ≤ content.length :=
        min_le_right _ _
      have hslice := pySlice_ofNat content start (min (start + chunk_size) content.length)
        (le_of_lt hs) heNle
      rw [hslice]
      have hbranch :
          (if overlap ≠ 0 ∧
              ((min (start + chunk_size) content.length : Nat) : Int) < (content.length : Int)
           then ((min (start + chunk_size) content.length : Nat) : Int) - (overlap : Int)
           else ((min (start + chunk_size) content.length : Nat) : Int)) =
          ((if overlap ≠ 0 ∧ min (start + chunk_size) content.length < content.length
            then min (start + chunk_size) content.length - overlap
            else min (start + chunk_size) content.length : Nat) : Int) := by
        by_cases hcond : overlap ≠ 0 ∧ min (start + chunk_size) content.length < content.length
        · rw [if_pos hcond,
            if_pos (⟨hcond.1, by exact_mod_cast hcond.2⟩ :
              overlap ≠ 0 ∧
                ((min (start + chunk_size) content.length : Nat) : Int) <
                  (content.length : Int))]
          have hole : overlap ≤ min (start + chunk_size) content.length := by omega
          exact (Nat.cast_sub hole).symm
        · rw [if_neg hcond, if_neg (by
            intro hcc
            exact hcond ⟨hcc.1, by exact_mod_cast hcc.2⟩)]
      rw [hbranch, ih]
    · have hsI : ¬ ((start : Int) < (content.length : Int)) := by exact_mod_cast hs
      rw [if_neg hsI, if_neg hs]

/-- With overlap < chunk_size the start index advances by at least one each
iteration, so fuel exceeding the remaining length suffices. -/
theorem chunkCharsGoN_isSome (content : Str) (chunk_size overlap : Nat)
    (ho : overlap < chunk_size) :
    ∀ (fuel start : Nat), content.length - start < fuel →
      ∃ r, chunkCharsGoN content chunk_size overlap fuel start = some r := by
  intro fuel
  induction fuel with
  | zero => intro s h; omega
  | succ n ih =>
    intro start hb
    rw [chunkCharsGoN_succ]
    by_cases hs : start < content.length
    · rw [if_pos hs]
      have hnext : content.length -
          (if overlap ≠ 0 ∧ min (start + chunk_size) content.length < content.length
           then min (start + chunk_size) content.length - overlap
           else min (start + chunk_size) content.length) < n := by
        by_cases hcond : overlap ≠ 0 ∧ min (start + chunk_size) content.length < content.length
        · rw [if_pos hcond]
          omega
        · rw [if_neg hcond]
          omega
      obtain ⟨r, hr⟩ := ih _ hnext
      rw [hr]
      exact ⟨_, rfl⟩
    · rw [if_neg hs]
      exact ⟨[], rfl⟩

/-- The canonical fuel of chunk_by_chars is sufficient when
overlap < chunk_size, and the Nat-state loop computes its value. -/
theorem chunk_by_chars_eq (content : Str) (chunk_size overlap : Nat)
    (ho : overlap < chunk_size) :
    chunkCharsGoN content chunk_size overlap (content.length + 1) 0 =
      some (chunk_by_chars content chunk_size overlap) := by
  obtain ⟨r, hr⟩ := chunkCharsGoN_isSome content chunk_size overlap ho
    (content.length + 1) 0 (by omega)
  rw [hr]
  unfold chunk_by_chars
  rw [show ((0 : Int) = ((0 : Nat) : Int)) from rfl,
    chunkCharsGo_eq_goN content chunk_size overlap ho, hr]
  rfl

/-- A successful loop run started inside the content begins with the window
slice at the start index. -/
theorem chunkCharsGoN_head (content : Str) (chunk_size overlap : Nat) (fuel start : Nat)
    (r : List Str) (h : chunkCharsGoN content chunk_size overlap fuel start = some r)
    (hs : start < content.length) :
    ∃ t, r = (content.drop start).take (min (start + chunk_size) content.length - start) :: t := by
  cases fuel with
  | zero => exact absurd h (by simp [chunkCharsGoN])
  | succ n =>
    rw [chunkCharsGoN_succ, if_pos hs] at h
    obtain ⟨r', _, h2⟩ := Option.map_eq_some'.mp h
    exact ⟨r', h2.symm⟩

/-- Reconstruction: dropping each later window's first overlap characters
and concatenating yields exactly the content from the start index on. -/
theorem chunkCharsGoN_reassemble (content : Str) (chunk_size overlap : Nat)
    (ho : overlap < chunk_size) :
    ∀ (fuel start : Nat) (r : List Str), content.length - start < fuel →
      chunkCharsGoN content chunk_size overlap fuel start = some r →
      reassembleOverlap overlap r = content.drop start := by
  intro fuel
  induction fuel with
  | zero => intro s r h _; omega
  | succ n ih =>
    intro start r hb h
    rw [chunkCharsGoN_succ] at h
    by_cases hs : start < content.length
    · rw [if_pos hs] at h
      obtain ⟨r', hr', hpiece⟩ := Option.map_eq_some'.mp h
      have hr2 : r =
          (content.drop start).take (min (start + chunk_size) content.length - start) :: r' :=
        hpiece.symm
      subst hr2
      rcases le_or_lt content.length (start + chunk_size) with hcase | hcase
      · have hmin : min (start + chunk_size) content.length = content.length :=
          min_eq_right hcase
        rw [hmin] at hr' ⊢
        rw [if_neg (by simp : ¬ (overlap ≠ 0 ∧ content.length < content.length))] at hr'
        have hr'nil : r' = [] := by
          cases n with
          | zero => exact absurd hr' (by simp [chunkCharsGoN])
          | succ m =>
            rw [chunkCharsGoN_succ, if_neg (lt_irrefl _)] at hr'
            exact (Option.some_inj.mp hr').symm
        subst hr'nil
        show (content.drop start).take (content.length - start) = content.drop start
        apply List.take_of_length_le
        simp [List.length_drop]
      · have hmin : min (start + chunk_size) content.length = start + chunk_size :=
          min_eq_left (le_of_lt hcase)
        rw [hmin] at hr' ⊢
        have hnexteq :
            (if overlap ≠ 0 ∧ start + chunk_size < content.length
             then start + chunk_size - overlap
             else start + chunk_size) = start + chunk_size - overlap := by
          by_cases h0 : overlap = 0
          · subst h0
            rw [if_neg (by simp)]
            omega
          · rw [if_pos ⟨h0, hcase⟩]
        rw [hnexteq] at hr'
        have hnextlt : start + chunk_size - overlap < content.length := by omega
        have hb' : content.length - (start + chunk_size - overlap) < n := by omega
        have hre := ih (start + chunk_size - overlap) r' hb' hr'
        obtain ⟨t, ht⟩ := chunkCharsGoN_head content chunk_size overlap n
          (start + chunk_size - overlap) r' hr' hnextlt
        subst ht
        show (content.drop start).take (start + chunk_size - start) ++
            (reassembleOverlap overlap
              ((content.drop (start + chunk_size - overlap)).take
                (min (start + chunk_size - overlap + chunk_size) content.length -
                  (start + chunk_size - overlap)) :: t)).drop overlap =
          content.drop start
        rw [hre, List.drop_drop]
        have hidx : start + chunk_size - overlap + overlap = start + chunk_size := by omega
        rw [hidx]
        have hpi : start + chunk_size - start = chunk_size := by omega
        rw [hpi]
        have hsplit := List.take_append_drop chunk_size (content.drop start)
        rw [List.drop_drop] at hsplit
        exact hsplit
    · rw [if_neg hs] at h
      have : r = [] := (Option.some_inj.mp h).symm
      subst this
      show ([] : Str) = content.drop start
      rw [List.drop_eq_nil_of_le (by omega)]

/-- Chunk count of the loop: the ceiling of remaining length minus overlap
over the stride. -/
theorem chunkCharsGoN_count (content : Str) (chunk_size overlap : Nat)
    (ho : overlap < chunk_size) :
    ∀ (fuel start : Nat) (r : List Str), content.length - start < fuel →
      overlap < content.length - start →
      chunkCharsGoN content chunk_size overlap fuel start = some r →
      r.length = (content.length - start - overlap + (chunk_size - overlap) - 1) /
        (chunk_size - overlap) := by
  intro fuel
  induction fuel with
  | zero => intro s r h _ _; omega
  | succ n ih =>
    intro start r hb hrem h
    have hs : start < content.length := by omega
    rw [chunkCharsGoN_succ, if_pos hs] at h
    obtain ⟨r', hr', hpiece⟩ := Option.map_eq_some'.mp h
    have hr2 : r =
        (content.drop start).take (min (start + chunk_size) content.length - start) :: r' :=
      hpiece.symm
    subst hr2
    rcases le_or_lt content.length (start + chunk_size) with hcase | hcase
    · have hmin : min (start + chunk_size) content.length = content.length :=
        min_eq_right hcase
      rw [hmin, if_neg (by simp : ¬ (overlap ≠ 0 ∧ content.length < content.length))] at hr'
      have hr'nil : r' = [] := by
        cases n with
        | zero => exact absurd hr' (by simp [chunkCharsGoN])
        | succ m =>
          rw [chunkCharsGoN_succ, if_neg (lt_irrefl _)] at hr'
          exact (Option.some_inj.mp hr').symm
      subst hr'nil
      simp only [List.length_cons, List.length_nil]
      exact (Nat.div_eq_of_lt_le (by omega) (by omega)).symm
    · have hmin : min (start + chunk_size) content.length = start + chunk_size :=
        min_eq_left (le_of_lt hcase)
      rw [hmin] at hr'
      have hnexteq :
          (if overlap ≠ 0 ∧ start + chunk_size < content.length
           then start + chunk_size - overlap
           else start + chunk_size) = start + chunk_size - overlap := by
        by_cases h0 : overlap = 0
        · subst h0
          rw [if_neg (by simp)]
          omega
        · rw [if_pos ⟨h0, hcase⟩]
      rw [hnexteq] at hr'
      have hlen' := ih (start + chunk_size - overlap) r' (by omega) (by omega) hr'
      simp only [List.length_cons]
      rw [hlen']
      have hnum : content.length - start - overlap + (chunk_size - overlap) - 1 =
          (content.length - (start + chunk_size - overlap) - overlap +
            (chunk_size - overlap) - 1) + (chunk_size - overlap) := by omega
      rw [hnum, Nat.add_div_right _ (by omega : 0 < chunk_size - overlap)]

/-- Every chunk except possibly the last has exactly the window length. -/
theorem chunkCharsGoN_chunk_len (content : Str) (chunk_size overlap : Nat)
    (ho : overlap < chunk_size) :
    ∀ (fuel start : Nat) (r : List Str),
      chunkCharsGoN content chunk_size overlap fuel start = some r →
      ∀ i, i + 1 < r.length → (r.getD i []).length = chunk_size := by
  intro fuel
  induction fuel with
  | zero => intro s r h; exact absurd h (by simp [chunkCharsGoN])
  | succ n ih =>
    intro start r h i hi
    rw [chunkCharsGoN_succ] at h
    by_cases hs : start < content.length
    · rw [if_pos hs] at h
      obtain ⟨r', hr', hpiece⟩ := Option.map_eq_some'.mp h
      have hr2 : r =
          (content.drop start).take (min (start + chunk_size) content.length - start) :: r' :=
        hpiece.symm
      subst hr2
      rcases le_or_lt content.length (start + chunk_size) with hcase | hcase
      · have hmin : min (start + chunk_size) content.length = content.length :=
          min_eq_right hcase
        rw [hmin, if_neg (by simp : ¬ (overlap ≠ 0 ∧ content.length < content.length))] at hr'
        have hr'nil : r' = [] := by
          cases n with
          | zero => exact absurd hr' (by simp [chunkCharsGoN])
          | succ m =>
            rw [chunkCharsGoN_succ, if_neg (lt_irrefl _)] at hr'
            exact (Option.some_inj.mp hr').symm
        subst hr'nil
        simp only [List.length_cons, List.length_nil] at hi
        omega
      · have hmin : min (start + chunk_size) content.length = start + chunk_size :=
          min_eq_left (le_of_lt hcase)
        rw [hmin] at hr'
        have hnexteq :
            (if overlap ≠ 0 ∧ start + chunk_size < content.length
             then start + chunk_size - overlap
             else start + chunk_size) = start + chunk_size - overlap := by
          by_cases h0 : overlap = 0
          · subst h0
            rw [if_neg (by simp)]
            omega
          · rw [if_pos ⟨h0, hcase⟩]
        rw [hnexteq] at hr'
        cases i with
        | zero =>
          simp only [List.getD_cons_zero]
          rw [hmin, List.length_take, List.length_drop]
          omega
        | succ j =>
          simp only [List.getD_cons_succ]
          simp only [List.length_cons] at hi
          exact ih (start + chunk_size - overlap) r' hr' j (by omega)
    · rw [if_neg hs] at h
      have : r = [] := (Option.some_inj.mp h).symm
      subst this
      simp at hi

/-- Each chunk after the first begins with the final overlap characters of
its predecessor. -/
theorem chunkCharsGoN_overlap_lemma (content : Str) (chunk_size overlap : Nat)
    (ho : overlap < chunk_size) :
    ∀ (fuel start : Nat) (r : List Str),
      chunkCharsGoN content chunk_size overlap fuel start = some r →
      ∀ i, i + 1 < r.length →
        (r.getD (i + 1) []).take overlap = (r.getD i []).drop (chunk_size - overlap) := by
  intro fuel
  induction fuel with
  | zero => intro s r h; exact absurd h (by simp [chunkCharsGoN])
  | succ n ih =>
    intro start r h i hi
    rw [chunkCharsGoN_succ] at h
    by_cases hs : start < content.length
    · rw [if_pos hs] at h
      obtain ⟨r', hr', hpiece⟩ := Option.map_eq_some'.mp h
      have hr2 : r =
          (content.drop start).take (min (start + chunk_size) content.length - start) :: r' :=
        hpiece.symm
      subst hr2
      rcases le_or_lt content.length (start + chunk_size) with hcase | hcase
      · have hmin : min (start + chunk_size) content.length = content.length :=
          min_eq_right hcase
        rw [hmin, if_neg (by simp : ¬ (overlap ≠ 0 ∧ content.length < content.length))] at hr'
        have hr'nil : r' = [] := by
          cases n with
          | zero => exact absurd hr' (by simp [chunkCharsGoN])
          | succ m =>
            rw [chunkCharsGoN_succ, if_neg (lt_irrefl _)] at hr'
            exact (Option.some_inj.mp hr').symm
        subst hr'nil
        simp only [List.length_cons, List.length_nil] at hi
        omega
      · have hmin : min (start + chunk_size) content.length = start + chunk_size :=
          min_eq_left (le_of_lt hcase)
        rw [hmin] at hr'
        have hnexteq :
            (if overlap ≠ 0 ∧ start + chunk_size < content.length
             then start + chunk_size - overlap
             else start + chunk_size) = start + chunk_size - overlap := by
          by_cases h0 : overlap = 0
          · subst h0
            rw [if_neg (by simp)]
            omega
          · rw [if_pos ⟨h0, hcase⟩]
        rw [hnexteq] at hr'
        cases i with
        | zero =>
          obtain ⟨t, ht⟩ := chunkCharsGoN_head content chunk_size overlap n
            (start + chunk_size - overlap) r' hr' (by omega)
          subst ht
          simp only [List.getD_cons_succ, List.getD_cons_zero]
          rw [hmin, List.take_take, List.drop_take, List.drop_drop]
          congr 1
          · omega
          · congr 1
            omega
        | succ j =>
          simp only [List.getD_cons_succ]
          simp only [List.length_cons] at hi
          exact ih (start + chunk_size - overlap) r' hr' j (by omega)
    · rw [if_neg hs] at h
      have : r = [] := (Option.some_inj.mp h).symm
      subst this
      simp at hi

/-- Length of the final chunk: the remaining length after the other chunks
have each advanced the window by the stride. -/
theorem chunkCharsGoN_last_len (content : Str) (chunk_size overlap : Nat)
    (ho : overlap < chunk_size) :
    ∀ (fuel start : Nat) (r : List Str),
      chunkCharsGoN content chunk_size overlap fuel start = some r →
      start < content.length →
      (r.getD (r.length - 1) []).length =
        content.length - start - (r.length - 1) * (chunk_size - overlap) := by
  intro fuel
  induction fuel with
  | zero => intro s r h; exact absurd h (by simp [chunkCharsGoN])
  | succ n ih =>
    intro start r h hs
    rw [chunkCharsGoN_succ, if_pos hs] at h
    obtain ⟨r', hr', hpiece⟩ := Option.map_eq_some'.mp h
    have hr2 : r =
        (content.drop start).take (min (start + chunk_size) content.length - start) :: r' :=
      hpiece.symm
    subst hr2
    rcases le_or_lt content.length (start + chunk_size) with hcase | hcase
    · have hmin : min (start + chunk_size) content.length = content.length :=
        min_eq_right hcase
      rw [hmin, if_neg (by simp : ¬ (overlap ≠ 0 ∧ content.length < content.length))] at hr'
      have hr'nil : r' = [] := by
        cases n with
        | zero => exact absurd hr' (by simp [chunkCharsGoN])
        | succ m =>
          rw [chunkCharsGoN_succ, if_neg (lt_irrefl _)] at hr'
          exact (Option.some_inj.mp hr').symm
      subst hr'nil
      simp only [List.length_cons, List.length_nil, Nat.add_sub_cancel, List.getD_cons_zero]
      rw [hmin, List.length_take, List.length_drop]
      omega
    · have hmin : min (start + chunk_size) content.length = start + chunk_size :=
        min_eq_left (le_of_lt hcase)
      rw [hmin] at hr'
      have hnexteq :
          (if overlap ≠ 0 ∧ start + chunk_size < content.length
           then start + chunk_size - overlap
           else start + chunk_size) = start + chunk_size - overlap := by
        by_cases h0 : overlap = 0
        · subst h0
          rw [if_neg (by simp)]
          omega
        · rw [if_pos ⟨h0, hcase⟩]
      rw [hnexteq] at hr'
      rw [hmin]
      obtain ⟨t, ht⟩ := chunkCharsGoN_head content chunk_size overlap n
        (start + chunk_size - overlap) r' hr' (by omega)
      have hr'len : 1 ≤ r'.length := by rw [ht]; simp
      have hlast := ih (start + chunk_size - overlap) r' hr' (by omega)
      have hidx : ((content.drop start).take (start + chunk_size - start) :: r').length - 1 =
          (r'.length - 1) + 1 := by
        simp only [List.length_cons]
        omega
      rw [hidx]
      simp only [List.getD_cons_succ, List.length_cons]
      rw [hlast]
      have hmul : (r'.length - 1 + 1) * (chunk_size - overlap) =
          (r'.length - 1) * (chunk_size - overlap) + (chunk_size - overlap) :=
        Nat.succ_mul _ _
      rw [hmul]
      omega

/-! ## C3: shape of character-mode chunking -/

/-- C3: for content longer than chunk_size and overlap below chunk_size,
chunk_by_chars returns exactly the ceiling of (L - overlap) over
(chunk_size - overlap) chunks; every chunk except possibly the last has
length chunk_size, and each chunk after the first begins with the final
overlap characters of its predecessor. -/
theorem claims_C3 (content : Str) (chunk_size overlap : Nat)
    (hL : chunk_size < content.length) (ho : overlap < chunk_size) :
    (chunk_by_chars content chunk_size overlap).length =
      (content.length - overlap + (chunk_size - overlap) - 1) / (chunk_size - overlap) ∧
    (∀ i, i + 1 < (chunk_by_chars content chunk_size overlap).length →
      ((chunk_by_chars content chunk_size overlap).getD i []).length = chunk_size) ∧
    (∀ i, i + 1 < (chunk_by_chars content chunk_size overlap).length →
      ((chunk_by_chars content chunk_size overlap).getD (i + 1) []).take overlap =
        ((chunk_by_chars content chunk_size overlap).getD i []).drop
          (chunk_size - overlap)) := by
  have h := chunk_by_chars_eq content chunk_size overlap ho
  refine ⟨?_, ?_, ?_⟩
  · have hcount := chunkCharsGoN_count content chunk_size overlap ho (content.length + 1) 0
      (chunk_by_chars content chunk_size overlap) (by omega) (by omega) h
    simpa using hcount
  · intro i hi
    exact chunkCharsGoN_chunk_len content chunk_size overlap ho (content.length + 1) 0
      (chunk_by_chars content chunk_size overlap) h i hi
  · intro i hi
    exact chunkCharsGoN_overlap_lemma content chunk_size overlap ho (content.length + 1) 0
      (chunk_by_chars content chunk_size overlap) h i hi

/-- Witness for C3 at a concrete input: length 8, chunk size 3, overlap 1
give four chunks. -/
theorem claims_C3_witness :
    3 < ("abcdefgh".toList).length ∧ 1 < 3 ∧
      (chunk_by_chars ("abcdefgh".toList) 3 1).length =
        (("abcdefgh".toList).length - 1 + (3 - 1) - 1) / (3 - 1) :=
  ⟨by decide, by decide, (claims_C3 ("abcdefgh".toList) 3 1 (by decide) (by decide)).1⟩

/-! ## Line-mode chunking reconstructs the content when rejoined -/

/-- splitOnChar never returns an empty part list. -/
theorem splitOnChar_ne_nil (sep : Char) : ∀ s : Str, splitOnChar sep s ≠ [] := by
  intro s
  cases s with
  | nil => simp [splitOnChar]
  | cons c rest =>
    cases h : splitOnChar sep rest with
    | nil => simp [splitOnChar, h]
    | cons hh t =>
      simp only [splitOnChar, h]
      split <;> simp

/-- joinSep on a list with a nonempty tail prepends head and separator. -/
theorem joinSep_cons_ne (sep a : Str) (rest : List Str) (h : rest ≠ []) :
    joinSep sep (a :: rest) = a ++ sep ++ joinSep sep rest := by
  rcases rest with _ | ⟨b, t⟩
  · exact absurd rfl h
  · rfl

/-- Joining the parts of a single-character split with that character
reproduces the string. -/
theorem joinSep_splitOnChar (sep : Char) : ∀ s : Str, joinSep [sep] (splitOnChar sep s) = s := by
  intro s
  induction s with
  | nil => rfl
  | cons c rest ih =>
    cases h : splitOnChar sep rest with
    | nil => exact absurd h (splitOnChar_ne_nil sep rest)
    | cons hh t =>
      rw [h] at ih
      simp only [splitOnChar, h]
      by_cases hc : c = sep
      · rw [if_pos hc]
        rw [joinSep_cons_ne [sep] [] (hh :: t) (List.cons_ne_nil _ _), ih]
        simp [hc]
      · rw [if_neg hc]
        cases t with
        | nil =>
          show c :: hh = c :: rest
          simp only [joinSep] at ih
          rw [ih]
        | cons t1 t2 =>
          rw [joinSep_cons_ne [sep] (c :: hh) (t1 :: t2) (List.cons_ne_nil _ _)]
          rw [joinSep_cons_ne [sep] hh (t1 :: t2) (List.cons_ne_nil _ _)] at ih
          rw [← ih]
          simp

/-- Splitting a part list at an interior position and joining the two sides
around one separator is the same as joining the whole list. -/
theorem joinSep_take_drop (sep : Str) :
    ∀ (m : Nat) (l : List Str), 0 < m → m < l.length →
      joinSep sep l = joinSep sep (l.take m) ++ sep ++ joinSep sep (l.drop m) := by
  intro m
  induction m with
  | zero => intro l h; omega
  | succ k ihm =>
    intro l _ hlt
    rcases l with _ | ⟨x, xs⟩
    · simp at hlt
    · have hxs : xs ≠ [] := by
        intro h
        subst h
        simp at hlt
      rw [joinSep_cons_ne sep x xs hxs]
      cases k with
      | zero =>
        simp only [List.take_succ_cons, List.take_zero, List.drop_succ_cons, List.drop_zero]
        rfl
      | succ k2 =>
        simp only [List.take_succ_cons, List.drop_succ_cons]
        have hxslen : k2 + 1 < xs.length := by
          simp only [List.length_cons] at hlt
          omega
        have htne : xs.take (k2 + 1) ≠ [] := by
          have hlt2 : (xs.take (k2 + 1)).length = min (k2 + 1) xs.length :=
            List.length_take _ _
          intro hc
          rw [hc] at hlt2
          simp only [List.length_nil] at hlt2
          omega
        rw [joinSep_cons_ne sep x (xs.take (k2 + 1)) htne]
        rw [ihm xs (by omega) hxslen]
        simp [List.append_assoc]

/-- Grouping a part list and joining every group, then joining the group
texts, is the same as joining the original parts. -/
theorem joinSep_groupsOf (sep : Str) (n : Nat) (hn : 0 < n) :
    ∀ (N : Nat) (l : List Str), l.length ≤ N →
      joinSep sep ((groupsOf n l).map (joinSep sep)) = joinSep sep l := by
  intro N
  induction N with
  | zero =>
    intro l hl
    have hnil : l = [] := List.length_eq_zero.mp (by omega)
    subst hnil
    rw [groupsOf]
    simp
  | succ N ih =>
    intro l hl
    rw [groupsOf]
    by_cases hle : l.isEmpty || n == 0
    · rw [if_pos hle]
      have hnil : l = [] := by
        simp only [Bool.or_eq_true, List.isEmpty_iff, beq_iff_eq] at hle
        rcases hle with h | h
        · exact h
        · omega
      subst hnil
      rfl
    · rw [if_neg hle]
      by_cases hsmall : l.length ≤ n
      · have htake : l.take n = l := List.take_of_length_le hsmall
        have hdrop : l.drop n = [] := List.drop_eq_nil_of_le hsmall
        rw [htake, hdrop, groupsOf]
        simp [joinSep]
      · push_neg at hsmall
        have hdropne : l.drop n ≠ [] := by
          intro hcontra
          have hlen0 : (l.drop n).length = 0 := by rw [hcontra]; rfl
          rw [List.length_drop] at hlen0
          omega
        have hgne : groupsOf n (l.drop n) ≠ [] := by
          rw [groupsOf]
          rw [if_neg (by
            simp only [Bool.or_eq_true, List.isEmpty_iff, beq_iff_eq]
            push_neg
            exact ⟨hdropne, by omega⟩)]
          exact List.cons_ne_nil _ _
        have hmapne : (groupsOf n (l.drop n)).map (joinSep sep) ≠ [] := by
          simpa using hgne
        rw [List.map_cons, joinSep_cons_ne sep _ _ hmapne]
        rw [ih (l.drop n) (by rw [List.length_drop]; omega)]
        exact (joinSep_take_drop sep n l hn hsmall).symm

/-! ## C2: which strategies reconstruct the content -/

/-- C2 (amended): character-mode chunks with the overlap region of each
later chunk removed concatenate to the content exactly, and line-mode
chunks rejoined with the newline separator reproduce the content exactly;
separator and regex modes drop separators and stripped whitespace and do
not reconstruct the content (see the counterexample). -/
theorem claims_C2 (content : Str) (chunk_size overlap lines_per_chunk : Nat)
    (ho : overlap < chunk_size) (hn : 0 < lines_per_chunk) :
    reassembleOverlap overlap (chunk_by_chars content chunk_size overlap) = content ∧
      joinSep ['\n'] (chunk_by_lines content lines_per_chunk) = content := by
  constructor
  · have h := chunk_by_chars_eq content chunk_size overlap ho
    have hr := chunkCharsGoN_reassemble content chunk_size overlap ho (content.length + 1) 0
      (chunk_by_chars content chunk_size overlap) (by omega) h
    simpa using hr
  · unfold chunk_by_lines
    rw [joinSep_groupsOf ['\n'] lines_per_chunk hn (splitOnChar '\n' content).length
      (splitOnChar '\n' content) le_rfl]
    exact joinSep_splitOnChar '\n' content

/-- Counterexample to C2 as stated: in separator mode the separator and the
stripped whitespace are dropped, so the concatenated chunks do not
reconstruct the content. -/
theorem claims_C2_counterexample :
    chunk_by_separator ("a\n---\nb".toList) ("\n---\n".toList) = ["a".toList, "b".toList] ∧
      (chunk_by_separator ("a\n---\nb".toList) ("\n---\n".toList)).flatten ≠
        "a\n---\nb".toList := by
  constructor
  · decide
  · decide

/-- Witness for C2 at concrete inputs. -/
theorem claims_C2_witness :
    1 < 3 ∧ 0 < 2 ∧
      reassembleOverlap 1 (chunk_by_chars ("abcde".toList) 3 1) = "abcde".toList ∧
      joinSep ['\n'] (chunk_by_lines ("a\nb\nc".toList) 2) = "a\nb\nc".toList :=
  ⟨by decide, by decide,
    (claims_C2 ("abcde".toList) 3 1 2 (by decide) (by decide)).1,
    (claims_C2 ("a\nb\nc".toList) 3 1 2 (by decide) (by decide)).2⟩

/-! ## C9: termination of the chunk_by_chars loop -/

/-- With overlap at least chunk_size and content longer than chunk_size,
the start index never advances past zero, so the loop runs out of any
amount of fuel. -/
theorem chunkCharsGo_diverges (content : Str) (chunk_size overlap : Nat)
    (hL : chunk_size < content.length) (ho : chunk_size ≤ overlap) (hcs : 1 ≤ chunk_size) :
    ∀ (fuel : Nat) (start : Int), start ≤ 0 →
      chunkCharsGo content chunk_size overlap fuel start = none := by
  intro fuel
  induction fuel with
  | zero => intro s _; rfl
  | succ n ih =>
    intro start hstart
    rw [chunkCharsGo_succ]
    have hcsI : (chunk_size : Int) < (content.length : Int) := by exact_mod_cast hL
    have hoI : (chunk_size : Int) ≤ (overlap : Int) := by exact_mod_cast ho
    have hcs1 : (1 : Int) ≤ (chunk_size : Int) := by exact_mod_cast hcs
    have h1 : start < (content.length : Int) := by omega
    rw [if_pos h1]
    have he : min (start + (chunk_size : Int)) (content.length : Int) =
        start + (chunk_size : Int) := by
      apply min_eq_left
      omega
    rw [he]
    rw [if_pos ⟨by omega, by omega⟩]
    rw [ih (start + (chunk_size : Int) - (overlap : Int)) (by omega)]
    rfl

/-- When the content fits in a single window, two iterations finish for any
overlap. -/
theorem chunkCharsGo_small (content : Str) (chunk_size overlap : Nat)
    (h : content.length ≤ chunk_size) :
    ∃ r, chunkCharsGo content chunk_size overlap 2 0 = some r := by
  rw [chunkCharsGo_succ]
  by_cases h0 : content.length = 0
  · rw [if_neg (by omega : ¬ ((0 : Int) < (content.length : Int)))]
    exact ⟨[], rfl⟩
  · have hpos : (0 : Int) < (content.length : Int) := by
      have : 0 < content.length := by omega
      exact_mod_cast this
    rw [if_pos hpos]
    have hle : (content.length : Int) ≤ (chunk_size : Int) := by exact_mod_cast h
    have he : min ((0 : Int) + (chunk_size : Int)) (content.length : Int) =
        (content.length : Int) := by
      apply min_eq_right
      omega
    rw [he]
    rw [if_neg (by
      intro hcc
      exact absurd hcc.2 (lt_irrefl _))]
    rw [chunkCharsGo_succ]
    rw [if_neg (lt_irrefl _)]
    exact ⟨_, rfl⟩

/-- C9: for chunk_size at least one, the chunk_by_chars loop terminates
exactly when the content fits in one window or the overlap is below the
chunk size; otherwise the window start never advances past the content and
no amount of fuel finishes the loop. -/
theorem claims_C9 (content : Str) (chunk_size overlap : Nat) (hcs : 1 ≤ chunk_size) :
    ChunkCharsTerminates content chunk_size overlap ↔
      (content.length ≤ chunk_size ∨ overlap < chunk_size) := by
  constructor
  · rintro ⟨fuel, r, hr⟩
    by_contra hno
    push_neg at hno
    obtain ⟨h1, h2⟩ := hno
    rw [chunkCharsGo_diverges content chunk_size overlap (by omega) h2 hcs fuel 0 le_rfl] at hr
    exact Option.noConfusion hr
  · rintro (hsmall | ho)
    · obtain ⟨r, hr⟩ := chunkCharsGo_small content chunk_size overlap hsmall
      exact ⟨2, r, hr⟩
    · refine ⟨content.length + 1, chunk_by_chars content chunk_size overlap, ?_⟩
      rw [show ((0 : Int) = ((0 : Nat) : Int)) from rfl,
        chunkCharsGo_eq_goN content chunk_size overlap ho]
      exact chunk_by_chars_eq content chunk_size overlap ho

/-- Witness for C9 at a concrete input. -/
theorem claims_C9_witness :
    1 ≤ 2 ∧
      (ChunkCharsTerminates ("abc".toList) 2 0 ↔
        (("abc".toList).length ≤ 2 ∨ 0 < 2)) :=
  ⟨by decide, claims_C9 ("abc".toList) 2 0 (by decide)⟩

/-! ## C4: the 100000-character end-to-end scenario -/

/-- The separator scanner finds nothing in newline-free repeated content. -/
theorem countDocSepsGo_rep : ∀ (fuel n : Nat),
    countDocSepsGo fuel (List.replicate n 'x') = 0 := by
  intro fuel
  induction fuel with
  | zero => intro n; rfl
  | succ m ih =>
    intro n
    cases n with
    | zero => rfl
    | succ k =>
      rw [List.replicate_succ]
      show countDocSepsGo (m + 1) ('x' :: List.replicate k 'x') = 0
      simp only [countDocSepsGo]
      rw [if_neg (by decide : ¬ ('x' = '\n'))]
      exact ih k

/-- The header scanner finds nothing in hash-free repeated content. -/
theorem countMdGo_rep : ∀ (fuel : Nat) (b : Bool) (n : Nat),
    countMdGo fuel b (List.replicate n 'x') = 0 := by
  intro fuel
  induction fuel with
  | zero => intro b n; rfl
  | succ m ih =>
    intro b n
    cases n with
    | zero => cases b <;> rfl
    | succ k =>
      rw [List.replicate_succ]
      show countMdGo (m + 1) b ('x' :: List.replicate k 'x') = 0
      have hmd : mdHeaderAt ('x' :: List.replicate k 'x') = none := rfl
      cases b with
      | false =>
        simp only [countMdGo, Bool.false_eq_true, if_false]
        have : (decide ('x' = '\n')) = false := by decide
        rw [this]
        exact ih false k
      | true =>
        simp only [countMdGo, if_true, hmd]
        have : (decide ('x' = '\n')) = false := by decide
        rw [this]
        exact ih false k

/-- auto_chunk on 100000 repeated characters picks character-count chunking
with the default overlap 500. -/
theorem auto_chunk_rep_eq :
    auto_chunk (List.replicate 100000 'x') 40000 =
      (chunk_by_chars (List.replicate 100000 'x') 40000 500, Strategy.character_count) := by
  have h1 : countDocSeps (List.replicate 100000 'x') = 0 := countDocSepsGo_rep _ _
  have h2 : countMdHeaders (List.replicate 100000 'x') = 0 := countMdGo_rep _ _ _
  have h3 : (List.replicate 100000 'x').count '\n' = 0 := by
    rw [List.count_replicate]
    decide
  simp only [auto_chunk]
  rw [h1, h2, h3]
  rw [if_neg (fun hc => absurd hc.1 (by omega)),
    if_neg (fun hc => absurd hc.1 (by omega)),
    if_neg (fun hc => absurd hc.1 (by omega))]

/-- A chunk_by_chars run that yields three chunks has two full windows and
a final chunk of the remaining length. -/
theorem chunk_by_chars_three_lengths (content : Str) (chunk_size overlap : Nat)
    (ho : overlap < chunk_size) (hL : chunk_size < content.length)
    (hcount : (content.length - overlap + (chunk_size - overlap) - 1) /
      (chunk_size - overlap) = 3) :
    (chunk_by_chars content chunk_size overlap).map List.length =
      [chunk_size, chunk_size, content.length - 2 * (chunk_size - overlap)] := by
  have h := chunk_by_chars_eq content chunk_size overlap ho
  have hc := chunkCharsGoN_count content chunk_size overlap ho (content.length + 1) 0
    (chunk_by_chars content chunk_size overlap) (by omega) (by omega) h
  simp only [Nat.sub_zero] at hc
  rw [hcount] at hc
  have hA := chunkCharsGoN_chunk_len content chunk_size overlap ho (content.length + 1) 0
    (chunk_by_chars content chunk_size overlap) h 0 (by omega)
  have hB := chunkCharsGoN_chunk_len content chunk_size overlap ho (content.length + 1) 0
    (chunk_by_chars content chunk_size overlap) h 1 (by omega)
  have hC := chunkCharsGoN_last_len content chunk_size overlap ho (content.length + 1) 0
    (chunk_by_chars content chunk_size overlap) h (by omega)
  obtain ⟨a, b, c, habc⟩ := List.length_eq_three.mp hc
  rw [habc] at hA hB hC ⊢
  simp at hA hB hC
  simp [hA, hB, hC]

/-- The chunk lengths auto_chunk actually produces on 100000 repeated
characters (the default overlap 500 is in effect). -/
theorem auto_chunk_rep_lengths :
    ((auto_chunk (List.replicate 100000 'x') 40000).1).map List.length =
      [40000, 40000, 21000] := by
  rw [auto_chunk_rep_eq]
  have h := chunk_by_chars_three_lengths (List.replicate 100000 'x') 40000 500
    (by omega) (by simp only [List.length_replicate]; decide)
    (by simp only [List.length_replicate])
  rw [h]
  simp only [List.length_replicate]

/-- The chunk lengths of a direct chunk_by_chars call at overlap 0. -/
theorem chunk_rep_zero_overlap_lengths :
    (chunk_by_chars (List.replicate 100000 'x') 40000 0).map List.length =
      [40000, 40000, 20000] := by
  have h := chunk_by_chars_three_lengths (List.replicate 100000 'x') 40000 0
    (by omega) (by simp only [List.length_replicate]; decide)
    (by simp only [List.length_replicate])
  rw [h]
  simp only [List.length_replicate]

/-- C4 (amended): on 100000 repeated characters with target chunk size
40000 the pipeline selects the character-count strategy and produces three
chunks, but of sizes 40000, 40000 and 21000, because auto-chunking always
applies the source default overlap of 500; the stated sizes 40000, 40000
and 20000 arise only from a direct chunk_by_chars call with overlap 0. -/
theorem claims_C4_amended :
    (auto_chunk (List.replicate 100000 'x') 40000).2 = Strategy.character_count ∧
    ((auto_chunk (List.replicate 100000 'x') 40000).1).map List.length =
      [40000, 40000, 21000] ∧
    (chunk_by_chars (List.replicate 100000 'x') 40000 0).map List.length =
      [40000, 40000, 20000] :=
  ⟨by rw [auto_chunk_rep_eq], auto_chunk_rep_lengths, chunk_rep_zero_overlap_lengths⟩

/-- Counterexample to C4 as stated: the pipeline run on 100000 repeated
characters does not produce chunk sizes 40000, 40000, 20000 (the third
chunk has 21000 characters). -/
theorem claims_C4_counterexample :
    ((auto_chunk (List.replicate 100000 'x') 40000).1).map List.length ≠
      [40000, 40000, 20000] := by
  rw [auto_chunk_rep_lengths]
  decide

/-! ## C10: when the pipeline invokes the relevance filter -/

/-- C10: the pipeline invokes the relevance filter only when filtering is
enabled and more than three chunks exist; with three or fewer chunks every
chunk is passed on paired with its original index even when filtering is
enabled, and the run is identical to a run with filtering disabled. -/
theorem claims_C10 (oracle : Oracle) (content query : Str) (chunk_size : Nat)
    (fast_model filter_chunks : Bool)
    (h : (auto_chunk content chunk_size).1.length ≤ 3) :
    rlm_select_chunks filter_chunks (auto_chunk content chunk_size).1 query =
      (auto_chunk content chunk_size).1.enum ∧
    rlm_process oracle content query chunk_size fast_model filter_chunks =
      rlm_process oracle content query chunk_size fast_model false ∧
    (∀ chunks2 : List Str, rlm_select_chunks false chunks2 query = chunks2.enum) := by
  have hsel : ∀ b : Bool, rlm_select_chunks b (auto_chunk content chunk_size).1 query =
      (auto_chunk content chunk_size).1.enum := by
    intro b
    unfold rlm_select_chunks
    rw [if_neg (fun hc => absurd hc.2 (by omega))]
  refine ⟨hsel filter_chunks, ?_, ?_⟩
  · simp only [rlm_process]
    rw [hsel filter_chunks, hsel false]
  · intro chunks2
    unfold rlm_select_chunks
    rw [if_neg (fun hc => absurd hc.1 (by simp))]

/-- Witness for C10 at a concrete input with a single chunk. -/
theorem claims_C10_witness :
    (auto_chunk ("ab".toList) 40000).1.length ≤ 3 ∧
      rlm_select_chunks true (auto_chunk ("ab".toList) 40000).1 ("q".toList) =
        (auto_chunk ("ab".toList) 40000).1.enum :=
  ⟨by decide, (claims_C10 (fun _ _ _ => Except.ok []) ("ab".toList) ("q".toList) 40000 false
    true (by decide)).1⟩
